import Mathlib

/-
Verification of the component reconciliation engine:
fuzzy identity matching (component_matcher.py) and the ERP stock-code
normalization heuristics (database.py, import_stock_items_from_erp).
Machine integers are modelled as Nat; Python dict/list operations are
modelled explicitly so that key-insertion order and value overwriting
are preserved.
-/

namespace Switchboard

/-! ## String utilities modelling the Python primitives used by the source -/

/-- Models Python `str.strip()`: drop leading and trailing whitespace. -/
def pyStrip (s : String) : String :=
  String.mk (((s.data.dropWhile Char.isWhitespace).reverse.dropWhile Char.isWhitespace).reverse)

/-- Auxiliary for `pySplitChar`: accumulates the current segment (reversed). -/
def splitCharAux (sep : Char) : List Char → List Char → List String
  | [], acc => [String.mk acc.reverse]
  | c :: cs, acc =>
    if c = sep then String.mk acc.reverse :: splitCharAux sep cs []
    else splitCharAux sep cs (c :: acc)

/-- Models Python `str.split(sep)` with a one-character separator:
never returns an empty list, does not collapse empty segments,
and `"".split(sep) == [""]`. -/
def pySplitChar (sep : Char) (s : String) : List String :=
  splitCharAux sep s.data []

/-- Auxiliary for `wsTokens`: split a character list at whitespace. -/
def splitWsAux : List Char → List Char → List (List Char)
  | [], acc => [acc.reverse]
  | c :: cs, acc =>
    if c.isWhitespace then acc.reverse :: splitWsAux cs []
    else splitWsAux cs (c :: acc)

/-- Models Python `str.split()` (no argument): whitespace-delimited tokens,
empty pieces discarded. -/
def wsTokens (s : String) : List (List Char) :=
  (splitWsAux s.data []).filter (fun t => t ≠ [])

/-- Boolean substring test on character lists, modelling Python `needle in hay`. -/
def isSubstrOf (needle : List Char) : List Char → Bool
  | [] => needle.isEmpty
  | c :: cs => needle.isPrefixOf (c :: cs) || isSubstrOf needle cs

/-- Models Python `str.upper()` (character-wise uppercasing). -/
def pyUpper (s : String) : String :=
  String.mk (s.data.map Char.toUpper)

/-- Models Python `' '.join(tokens)`. -/
def joinSpace : List String → String
  | [] => ""
  | [x] => x
  | x :: xs => x ++ " " ++ joinSpace xs

/-! ## Normalizer (database.py, import_stock_items_from_erp, lines 552-598) -/

/-- Class extraction (database.py lines 557-560):
`parts = stkcode.split('-')`, then `itclass = parts[0] if len(parts) > 0 else 'OTHER'`. -/
def extractClass (stkcode : String) : String :=
  match pySplitChar '-' stkcode with
  | p :: _ => p
  | [] => "OTHER"

/-- The fixed alias table order (database.py lines 566-570). -/
def knownManufacturers : List String :=
  ["SCH", "SCHNEIDER", "ABB", "SIE", "SIEMENS", "LEG", "LEGRAND",
   "HAG", "HAGER", "GE", "EATON", "LS", "MIT", "MITSUBISHI"]

/-- The alias resolution of database.py lines 575-586: the five abbreviations
map to canonical names; any other known token passes the original part through. -/
def aliasFor (mfg : String) (part : String) : String :=
  if mfg = "SCH" then "Schneider"
  else if mfg = "SIE" then "Siemens"
  else if mfg = "LEG" then "Legrand"
  else if mfg = "HAG" then "Hager"
  else if mfg = "MIT" then "Mitsubishi"
  else part

/-- The inner loop of database.py lines 573-587 for one token: the first entry
of the alias table that is a substring of the uppercased token (then `break`). -/
def matchPart (part : String) : Option String :=
  match knownManufacturers.find? (fun mfg => isSubstrOf mfg.data (pyUpper part).data) with
  | some mfg => some (aliasFor mfg part)
  | none => none

/-- Manufacturer extraction (database.py lines 561, 572-587): iterate over all
tokens; each token with an alias-table hit overwrites `manufacturer`; the inner
`break` only ends the alias scan for that token, not the token loop. -/
def extractManufacturer (parts : List String) : String :=
  parts.foldl (fun acc part => (matchPart part).getD acc) "Unknown"

/-- Auxiliary for `digitsThen`: after at least one digit has been read, succeed
when the current character is one of the target letters (the regex may stop the
digit run here), otherwise consume further digits. -/
def digitsThenAux (target : List Char) : List Char → Bool
  | [] => false
  | c :: cs => decide (c ∈ target) || (c.isDigit && digitsThenAux target cs)

/-- Models Python `re.match(r'\d+[..]', part)`: a prefix of the token consisting
of one or more digits followed by one of the target letters (trailing characters
are not inspected, exactly as `re.match` anchors only at the start). -/
def digitsThen (target : List Char) : List Char → Bool
  | [] => false
  | c :: cs => c.isDigit && digitsThenAux target cs

/-- The rating-token test of database.py lines 592-596:
`re.match(r'\d+[AV]', part)` or else `re.match(r'\d+P', part)`. -/
def isRatingToken (part : String) : Bool :=
  digitsThen ['A', 'V'] part.data || digitsThen ['P'] part.data

/-- Rating extraction (database.py lines 590-598): collect the matching tokens in
encounter order and join with single spaces; empty when none match. -/
def extractRating (parts : List String) : String :=
  let ratings := parts.filter (fun p => isRatingToken p)
  if ratings.isEmpty then "" else joinSpace ratings

/-! ## Similarity scorer

The actual scorer is the third-party fuzzywuzzy `fuzz.token_sort_ratio`
(component_matcher.py lines 48-52); its sources are not part of this
repository.  It is modelled from the spec here. -/

/-- Total lexicographic comparison on character lists, used only to make the
token sort deterministic (the verified properties do not depend on the order). -/
def lexLe : List Char → List Char → Bool
  | [], _ => true
  | _ :: _, [] => false
  | a :: as, b :: bs => if a = b then lexLe as bs else decide (a < b)

/-- Ordered insertion for the token sort. -/
def insertTok (x : List Char) : List (List Char) → List (List Char)
  | [] => [x]
  | y :: ys => if lexLe x y then x :: y :: ys else y :: insertTok x ys

/-- Insertion sort of the token list. -/
def sortToks : List (List Char) → List (List Char)
  | [] => []
  | t :: ts => insertTok t (sortToks ts)

/-- Join token lists with single spaces (character-list form of `' '.join`). -/
def joinSp : List (List Char) → List Char
  | [] => []
  | [t] => t
  | t :: ts => t ++ ' ' :: joinSp ts

/-- Modelled from the spec (section 4.2): "sort the whitespace-split tokens of
each string, rejoin" — the token-sorted canonical form of a description. -/
def tokenSortChars (s : String) : List Char :=
  joinSp (sortToks (wsTokens s))

/-- Fuel-indexed longest-common-subsequence recursion; every recursive call
consumes one unit of fuel and shortens at least one list, so any fuel of at
least `x.length + y.length` computes the true value (see `lcs`). -/
def lcsFuel : Nat → List Char → List Char → Nat
  | 0, _, _ => 0
  | _ + 1, [], _ => 0
  | _ + 1, _ :: _, [] => 0
  | n + 1, a :: as, b :: bs =>
    if a = b then lcsFuel n as bs + 1
    else max (lcsFuel n (a :: as) bs) (lcsFuel n as (b :: bs))

/-- Longest common subsequence length, the combinatorial core of the normalized
indel edit-distance ratio: with insertions and deletions of cost 1 and
substitutions of cost 2, the distance is `|x| + |y| - 2 * lcs x y`, so the
normalized similarity is `2 * lcs x y / (|x| + |y|)`. -/
def lcs (x y : List Char) : Nat :=
  lcsFuel (x.length + y.length) x y

/-- Modelled from the spec (section 4.2): "compute a normalized
edit-distance-based ratio ... scaled to an integer 0-100".  Scaled similarity
`2 * lcs / (|x| + |y|)` in percent; two empty strings are identical, ratio 100
(the convention of the underlying edit-distance libraries).  Scaling uses
floor division; it is exact at the verified points (0 and 100). -/
def simRatio100 (x y : List Char) : Nat :=
  if x.length + y.length = 0 then 100
  else 200 * lcs x y / (x.length + y.length)

/-- Modelled from the spec (sections 4.2 and 9): the similarity scorer
(third-party `fuzz.token_sort_ratio`, absent from src/).  Token-sort both
inputs, then the normalized ratio; "Empty-vs-empty input defined as score 0
(no information to match on) rather than 100" is the spec's deliberate
clarification of the library behavior. -/
def tokenSortRatioScore (a b : String) : Nat :=
  if a = "" ∧ b = "" then 0
  else simRatio100 (tokenSortChars a) (tokenSortChars b)

/-! ## Matcher data model (component_matcher.py) -/

/-- A catalog record as consumed by the matcher: the fields read from the
candidate dictionaries (component_matcher.py lines 44, 58, 68). -/
structure Candidate where
  component_id : Nat
  itemname : String
  manufacturer : String
  model_number : String
deriving DecidableEq, Repr

/-- A detected component as consumed by the matcher: the four fields read via
`detected.get(...)` (component_matcher.py lines 28-31); `itclass` is only used
to filter candidate retrieval, which is the external Candidate Provider. -/
structure DetectedItem where
  itemname : String
  itclass : String
  manufacturer : String
  model_number : String
deriving DecidableEq, Repr

/-- The comparable string of a candidate (component_matcher.py line 44):
`f"{itemname} {manufacturer} {model_number}".strip()`. -/
def candidateStr (c : Candidate) : String :=
  pyStrip (c.itemname ++ " " ++ c.manufacturer ++ " " ++ c.model_number)

/-- The comparable string of a detected item (component_matcher.py line 40). -/
def detectedStr (d : DetectedItem) : String :=
  pyStrip (d.itemname ++ " " ++ d.manufacturer ++ " " ++ d.model_number)

/-- One step of building `candidate_dict` (component_matcher.py lines 42-45):
a Python dict assignment keeps the key at its first-insertion position but
overwrites the value. -/
def dictInsert (acc : List (String × Candidate)) (c : Candidate) : List (String × Candidate) :=
  if acc.any (fun p => p.1 = candidateStr c) then
    acc.map (fun p => if p.1 = candidateStr c then (candidateStr c, c) else p)
  else acc ++ [(candidateStr c, c)]

/-- The `candidate_dict` of component_matcher.py lines 42-45 as an ordered
association list: keys in first-occurrence order, each key mapped to the
last candidate sharing that comparable string. -/
def buildDict (candidates : List Candidate) : List (String × Candidate) :=
  candidates.foldl dictInsert []

/-- One comparison step of `process.extractOne` (Python `max` keeps the first
element on ties, and a later element replaces only on a strictly larger score). -/
def scoreStep (q : String) (best : (String × Candidate) × Nat) (r : String × Candidate) :
    (String × Candidate) × Nat :=
  if tokenSortRatioScore q r.1 > best.2 then (r, tokenSortRatioScore q r.1) else best

/-- Models `process.extractOne(detected_str, candidate_dict.keys(), scorer=fuzz.token_sort_ratio)`
(component_matcher.py lines 48-52), returning the dictionary entry with it:
`None` only for an empty choice sequence, otherwise the first maximal-scoring
choice in key order. -/
def extractOneBest (q : String) : List (String × Candidate) → Option ((String × Candidate) × Nat)
  | [] => none
  | p :: rest => some (rest.foldl (scoreStep q) (p, tokenSortRatioScore q p.1))

/-- `EstimatorConfig.AUTO_MATCH_THRESHOLD` (config.py line 38). -/
def AUTO_MATCH_THRESHOLD : Nat := 85

/-- `EstimatorConfig.REVIEW_THRESHOLD` (config.py line 39). -/
def REVIEW_THRESHOLD : Nat := 70

/-- The threshold decision of component_matcher.py lines 60-66. -/
def matchType (s : Nat) : String :=
  if AUTO_MATCH_THRESHOLD ≤ s then "auto"
  else if REVIEW_THRESHOLD ≤ s then "review"
  else "new"

/-- `ComponentMatcher.match_component` (component_matcher.py lines 17-68):
returns `(component_id, match_score, match_type)`.  The candidate list is what
the external provider returned for the item's class. -/
def matchComponent (d : DetectedItem) (candidates : List Candidate) :
    Option Nat × Nat × String :=
  match candidates with
  | [] => (none, 0, "new")
  | c :: rest =>
    match extractOneBest (detectedStr d) (buildDict (c :: rest)) with
    | none => (none, 0, "new")
    | some ps => (some ps.1.2.component_id, ps.2, matchType ps.2)

/-- Ordered insertion for the descending stable sort underlying
`heapq.nlargest`: a new element passes over every element with a greater or
equal key, so earlier-inserted elements precede later ones on ties. -/
def insertDesc {α : Type} (key : α → Nat) (x : α) : List α → List α
  | [] => [x]
  | y :: ys => if key x > key y then x :: y :: ys else y :: insertDesc key x ys

/-- Stable descending sort by key, modelling
`sorted(iterable, key=key, reverse=True)`, to which `heapq.nlargest` is
documented equivalent. -/
def sortDesc {α : Type} (key : α → Nat) (l : List α) : List α :=
  l.foldl (fun acc x => insertDesc key x acc) []

/-- `ComponentMatcher.get_match_suggestions` (component_matcher.py lines 70-112):
`process.extract(..., limit=limit)` is `heapq.nlargest(limit, scored_choices)`,
which yields the empty list whenever `limit <= 0`; results carry the matched
candidate together with its score. -/
def getMatchSuggestions (d : DetectedItem) (candidates : List Candidate) (limit : Int) :
    List (Candidate × Nat) :=
  match candidates with
  | [] => []
  | c :: rest =>
    ((sortDesc (fun q => q.2)
        ((buildDict (c :: rest)).map
          (fun p => (p, tokenSortRatioScore (detectedStr d) p.1)))).take limit.toNat).map
      (fun q => (q.1.2, q.2))

/-! ## Definitions following the spec's words, for comparison (refinement) -/

/-- Follows the spec's words (section 4.1): "First alias match wins" — the
manufacturer derived from the first token with an alias-table hit. -/
def firstAliasManufacturer (parts : List String) : String :=
  ((parts.filterMap matchPart).head?).getD "Unknown"

/-- The manufacturer actually produced by the source loop, characterized
declaratively: the alias of the last token with an alias-table hit. -/
def lastAliasManufacturer (parts : List String) : String :=
  ((parts.filterMap matchPart).getLast?).getD "Unknown"

/-- Follows the spec's words (section 4.1, rating extraction): a token counts
only when it is exactly an integer followed by one of `A`, `V`, `P`
(a full match, no trailing characters). -/
def isRatingTokenSpec (part : String) : Bool :=
  match part.data.reverse with
  | [] => false
  | c :: rest =>
    (c = 'A' || c = 'V' || c = 'P') && rest ≠ [] && rest.all Char.isDigit

/-! ## Lemmas about the similarity scorer -/

theorem lcsFuel_comm : ∀ (n : Nat) (x y : List Char), lcsFuel n x y = lcsFuel n y x := by
  intro n
  induction n with
  | zero => intro x y; rfl
  | succ n ih =>
    intro x y
    cases x with
    | nil => cases y <;> rfl
    | cons a as =>
      cases y with
      | nil => rfl
      | cons b bs =>
        by_cases h : a = b
        · subst h
          simp [lcsFuel, ih as bs]
        · have h2 : ¬ b = a := fun hh => h hh.symm
          simp only [lcsFuel, if_neg h, if_neg h2]
          rw [ih (a :: as) bs, ih as (b :: bs), Nat.max_comm]

theorem lcsFuel_self : ∀ (n : Nat) (x : List Char), x.length ≤ n → lcsFuel n x x = x.length := by
  intro n
  induction n with
  | zero =>
    intro x h
    have : x = [] := List.eq_nil_of_length_eq_zero (Nat.le_zero.mp h)
    subst this; rfl
  | succ n ih =>
    intro x h
    cases x with
    | nil => rfl
    | cons a as =>
      simp only [lcsFuel, if_pos rfl]
      rw [ih as (by simpa using Nat.le_of_succ_le_succ h)]
      rfl

theorem lcs_comm (x y : List Char) : lcs x y = lcs y x := by
  unfold lcs
  rw [Nat.add_comm x.length, lcsFuel_comm]

theorem lcs_self (x : List Char) : lcs x x = x.length := by
  unfold lcs
  exact lcsFuel_self _ x (by omega)

theorem simRatio100_comm (x y : List Char) : simRatio100 x y = simRatio100 y x := by
  unfold simRatio100
  rw [Nat.add_comm y.length, lcs_comm y x]

theorem simRatio100_self (x : List Char) : simRatio100 x x = 100 := by
  unfold simRatio100
  split
  · rfl
  · rename_i h
    rw [lcs_self]
    have hpos : 0 < x.length + x.length := Nat.pos_of_ne_zero h
    have h200 : 200 * x.length = 100 * (x.length + x.length) := by ring
    rw [h200, Nat.mul_div_cancel _ hpos]

/-- C8: the similarity scorer is symmetric; every non-empty string scores 100
against itself; the empty-vs-empty comparison is defined as 0, not 100. -/
theorem c8_scorer_symmetric_and_boundaries :
    (∀ a b : String, tokenSortRatioScore a b = tokenSortRatioScore b a) ∧
    (∀ a : String, a ≠ "" → tokenSortRatioScore a a = 100) ∧
    tokenSortRatioScore "" "" = 0 := by
  refine ⟨?_, ?_, by decide⟩
  · intro a b
    unfold tokenSortRatioScore
    by_cases ha : a = "" <;> by_cases hb : b = "" <;>
      simp [ha, hb, simRatio100_comm]
  · intro a ha
    unfold tokenSortRatioScore
    rw [if_neg (by simp [ha])]
    exact simRatio100_self _

/-- Witness for C8: the non-emptiness hypothesis discharged at `"abc"`. -/
theorem c8_witness : tokenSortRatioScore "abc" "abc" = 100 :=
  c8_scorer_symmetric_and_boundaries.2.1 "abc" (by decide)

/-! ## Lemmas about the decision thresholds -/

theorem matchType_iff (s : Nat) :
    (matchType s = "auto" ↔ AUTO_MATCH_THRESHOLD ≤ s) ∧
    (matchType s = "review" ↔ REVIEW_THRESHOLD ≤ s ∧ s < AUTO_MATCH_THRESHOLD) ∧
    (matchType s = "new" ↔ s < REVIEW_THRESHOLD) := by
  unfold matchType AUTO_MATCH_THRESHOLD REVIEW_THRESHOLD
  split_ifs with h1 h2
  · exact ⟨⟨fun _ => h1, fun _ => rfl⟩,
      ⟨fun h => absurd h (by decide), fun h => absurd h1 (by omega)⟩,
      ⟨fun h => absurd h (by decide), fun h => absurd h1 (by omega)⟩⟩
  · exact ⟨⟨fun h => absurd h (by decide), fun h => absurd h h1⟩,
      ⟨fun _ => ⟨h2, by omega⟩, fun _ => rfl⟩,
      ⟨fun h => absurd h (by decide), fun h => absurd h2 (by omega)⟩⟩
  · exact ⟨⟨fun h => absurd h (by decide), fun h => absurd h h1⟩,
      ⟨fun h => absurd h (by decide), fun h => absurd h.1 h2⟩,
      ⟨fun _ => by omega, fun _ => rfl⟩⟩

theorem matchComponent_cases (d : DetectedItem) (cs : List Candidate) :
    matchComponent d cs = (none, 0, "new") ∨
    ∃ id s, matchComponent d cs = (some id, s, matchType s) := by
  cases cs with
  | nil => exact Or.inl rfl
  | cons c rest =>
    simp only [matchComponent]
    cases h : extractOneBest (detectedStr d) (buildDict (c :: rest)) with
    | none => exact Or.inl rfl
    | some ps => exact Or.inr ⟨ps.1.2.component_id, ps.2, rfl⟩

/-- C1: the decision returned by `match_component` is `auto` exactly when the
best score reaches `AUTO_MATCH_THRESHOLD` (85), `review` exactly when it lies
in `[REVIEW_THRESHOLD, AUTO_MATCH_THRESHOLD)` (70 to 84), and `new` otherwise. -/
theorem c1_decision_thresholds (d : DetectedItem) (cs : List Candidate) :
    ((matchComponent d cs).2.2 = "auto" ↔ AUTO_MATCH_THRESHOLD ≤ (matchComponent d cs).2.1) ∧
    ((matchComponent d cs).2.2 = "review" ↔
      REVIEW_THRESHOLD ≤ (matchComponent d cs).2.1 ∧
      (matchComponent d cs).2.1 < AUTO_MATCH_THRESHOLD) ∧
    ((matchComponent d cs).2.2 = "new" ↔ (matchComponent d cs).2.1 < REVIEW_THRESHOLD) := by
  rcases matchComponent_cases d cs with h | ⟨id, s, h⟩ <;> rw [h]
  · decide
  · exact matchType_iff s

/-- C2: an empty candidate pool is a defined outcome — `match_component`
returns no id, score 0 and decision `new`. -/
theorem c2_empty_pool (d : DetectedItem) : matchComponent d [] = (none, 0, "new") := rfl

/-! ## Lemmas about the candidate dictionary -/

theorem dictInsert_ne_nil (acc : List (String × Candidate)) (c : Candidate) :
    acc ≠ [] → dictInsert acc c ≠ [] := by
  intro hacc
  unfold dictInsert
  split
  · simpa using hacc
  · simp

theorem foldl_dictInsert_ne_nil :
    ∀ (l : List Candidate) (acc : List (String × Candidate)),
      acc ≠ [] → l.foldl dictInsert acc ≠ [] := by
  intro l
  induction l with
  | nil => intro acc h; exact h
  | cons c cs ih =>
    intro acc h
    exact ih (dictInsert acc c) (dictInsert_ne_nil acc c h)

theorem buildDict_ne_nil (c : Candidate) (rest : List Candidate) :
    buildDict (c :: rest) ≠ [] := by
  unfold buildDict
  rw [List.foldl_cons]
  apply foldl_dictInsert_ne_nil
  unfold dictInsert
  simp

/-- C3 counterexample: a non-empty pool whose best candidate scores below the
review threshold still yields the candidate's id together with decision `new`,
so the matched id is not absent. -/
theorem c3_counterexample :
    matchComponent ⟨"Q", "OTHER", "", ""⟩ [⟨7, "ZZZ", "", ""⟩] = (some 7, 0, "new") ∧
    ([⟨7, "ZZZ", "", ""⟩] : List Candidate) ≠ [] := by decide

/-- C3 (amended): the returned matched id is absent exactly when the candidate
pool is empty; with a non-empty pool the best candidate's id is returned even
when the decision is `new`. -/
theorem c3_id_none_iff_empty_pool (d : DetectedItem) (cs : List Candidate) :
    (matchComponent d cs).1 = none ↔ cs = [] := by
  cases cs with
  | nil => simp [matchComponent]
  | cons c rest =>
    simp only [matchComponent]
    obtain ⟨p, l, hd⟩ := List.exists_cons_of_ne_nil (buildDict_ne_nil c rest)
    rw [hd]
    simp [extractOneBest]

/-! ## Lemmas about the manufacturer extraction -/

theorem getLastD_cons (L : List String) : ∀ (m acc : String),
    ((m :: L).getLast?).getD acc = (L.getLast?).getD m := by
  induction L with
  | nil => intro m acc; rfl
  | cons x xs ih =>
    intro m acc
    rw [List.getLast?_cons_cons, ih x acc, ih x m]

theorem foldl_getD_eq (l : List String) : ∀ acc : String,
    l.foldl (fun a p => (matchPart p).getD a) acc =
      ((l.filterMap matchPart).getLast?).getD acc := by
  induction l with
  | nil => intro acc; rfl
  | cons p ps ih =>
    intro acc
    rw [List.foldl_cons, ih]
    cases h : matchPart p with
    | none => simp [List.filterMap_cons, h]
    | some m => simp [List.filterMap_cons, h, getLastD_cons]

/-- C4 counterexample: on `"MCB-SCH-SIE"` the source loop produces `Siemens`
(the later token `SIE` overwrites the earlier hit `SCH`), while the claimed
first-match rule would produce `Schneider`. -/
theorem c4_counterexample :
    extractManufacturer (pySplitChar '-' "MCB-SCH-SIE") = "Siemens" ∧
    firstAliasManufacturer (pySplitChar '-' "MCB-SCH-SIE") = "Schneider" ∧
    extractManufacturer (pySplitChar '-' "MCB-SCH-SIE") ≠
      firstAliasManufacturer (pySplitChar '-' "MCB-SCH-SIE") := by decide

/-- C4 (amended): the tokens are scanned against the alias table
(SCH, SIE, LEG, HAG, MIT map to canonical names, other known tokens pass
through verbatim, no match leaves `Unknown`), but the LAST alias match wins:
each matching token overwrites the previously extracted manufacturer. -/
theorem c4_manufacturer_last_alias_wins :
    (∀ parts : List String, extractManufacturer parts = lastAliasManufacturer parts) ∧
    matchPart "SCH" = some "Schneider" ∧ matchPart "SIE" = some "Siemens" ∧
    matchPart "LEG" = some "Legrand" ∧ matchPart "HAG" = some "Hager" ∧
    matchPart "MIT" = some "Mitsubishi" ∧ matchPart "ABB" = some "ABB" ∧
    matchPart "XYZ" = none := by
  refine ⟨?_, by decide, by decide, by decide, by decide, by decide, by decide, by decide⟩
  intro parts
  unfold extractManufacturer lastAliasManufacturer
  exact foldl_getD_eq parts "Unknown"

/-! ## Lemmas about the class extraction -/

theorem splitCharAux_ne_nil (sep : Char) : ∀ (cs acc : List Char),
    ∃ p ps, splitCharAux sep cs acc = p :: ps := by
  intro cs
  induction cs with
  | nil => intro acc; exact ⟨_, _, rfl⟩
  | cons c cs ih =>
    intro acc
    simp only [splitCharAux]
    split
    · exact ⟨_, _, rfl⟩
    · exact ih (c :: acc)

/-- C5 counterexample: a stock code without any hyphen keeps the whole string
as its class — `"MCB63A"` is classified as `"MCB63A"`, not as `"OTHER"`. -/
theorem c5_counterexample :
    extractClass "MCB63A" = "MCB63A" ∧ "MCB63A" ≠ "OTHER" ∧
    pySplitChar '-' "MCB63A" = ["MCB63A"] := by decide

/-- C5 (amended): the class is always the first hyphen-delimited segment; the
split never returns an empty list, so the `OTHER` fallback branch is
unreachable and a string without a hyphen yields the whole string (for the
empty string, the empty class), never `OTHER`. -/
theorem c5_class_always_first_segment :
    (∀ s : String, ∃ p ps, pySplitChar '-' s = p :: ps ∧ extractClass s = p) ∧
    extractClass "MCB63A" = "MCB63A" ∧ extractClass "" = "" := by
  refine ⟨?_, by decide, by decide⟩
  intro s
  obtain ⟨p, ps, h⟩ := splitCharAux_ne_nil '-' s.data []
  refine ⟨p, ps, h, ?_⟩
  unfold extractClass pySplitChar
  rw [h]

/-! ## Lemmas about the rating extraction -/

theorem digitsThenAux_iff (t : List Char) : ∀ cs : List Char,
    digitsThenAux t cs = true ↔
      ∃ ds c rest, cs = ds ++ c :: rest ∧ (∀ d ∈ ds, d.isDigit = true) ∧ c ∈ t := by
  intro cs
  induction cs with
  | nil =>
    simp only [digitsThenAux, Bool.false_eq_true, false_iff]
    rintro ⟨ds, c, rest, heq, -, -⟩
    exact absurd heq.symm (List.append_ne_nil_of_right_ne_nil ds (List.cons_ne_nil c rest))
  | cons x cs ih =>
    simp only [digitsThenAux, Bool.or_eq_true, Bool.and_eq_true, decide_eq_true_eq, ih]
    constructor
    · rintro (hx | ⟨hd, ds, c, rest, heq, hds, hc⟩)
      · exact ⟨[], x, cs, rfl, by simp, hx⟩
      · refine ⟨x :: ds, c, rest, by rw [heq, List.cons_append], ?_, hc⟩
        intro d hdm
        rcases List.mem_cons.mp hdm with h | h
        · rw [h]; exact hd
        · exact hds d h
    · rintro ⟨ds, c, rest, heq, hds, hc⟩
      cases ds with
      | nil =>
        injection heq with h1 h2
        subst h1; subst h2
        exact Or.inl hc
      | cons d ds =>
        injection heq with h1 h2
        refine Or.inr ⟨?_, ds, c, rest, h2, ?_, hc⟩
        · rw [h1]; exact hds d (by simp)
        · intro e he; exact hds e (by simp [he])

theorem digitsThen_iff (t : List Char) (cs : List Char) :
    digitsThen t cs = true ↔
      ∃ ds c rest, cs = ds ++ c :: rest ∧ ds ≠ [] ∧
        (∀ d ∈ ds, d.isDigit = true) ∧ c ∈ t := by
  cases cs with
  | nil =>
    simp only [digitsThen, Bool.false_eq_true, false_iff]
    rintro ⟨ds, c, rest, heq, -, -, -⟩
    exact absurd heq.symm (List.append_ne_nil_of_right_ne_nil ds (List.cons_ne_nil c rest))
  | cons x cs =>
    simp only [digitsThen, Bool.and_eq_true, digitsThenAux_iff]
    constructor
    · rintro ⟨hx, ds, c, rest, heq, hds, hc⟩
      refine ⟨x :: ds, c, rest, by rw [heq, List.cons_append], List.cons_ne_nil x ds, ?_, hc⟩
      intro d hdm
      rcases List.mem_cons.mp hdm with h | h
      · rw [h]; exact hx
      · exact hds d h
    · rintro ⟨ds, c, rest, heq, hne, hds, hc⟩
      cases ds with
      | nil => exact absurd rfl hne
      | cons d ds =>
        injection heq with h1 h2
        refine ⟨by rw [h1]; exact hds d (by simp), ds, c, rest, h2, ?_, hc⟩
        intro e he; exact hds e (by simp [he])

/-- C6 counterexample: the regexes are prefix-anchored, so `"63AX"` is
collected as a rating token (and returned whole), while the claimed
exact-pattern rule would collect nothing from `"MCB-63AX"`. -/
theorem c6_counterexample :
    extractRating (pySplitChar '-' "MCB-63AX") = "63AX" ∧
    isRatingTokenSpec "63AX" = false ∧
    joinSpace ((pySplitChar '-' "MCB-63AX").filter (fun p => isRatingTokenSpec p)) = "" := by
  decide

/-- C6 (amended): the rating is the space-joined sequence, in encounter order,
of the tokens that BEGIN with one-or-more digits followed by `A`, `V` or `P`
(prefix match — trailing characters are not rejected), and it is empty when no
token so matches; `"MCB-3P-63A-SCH"` yields `"3P 63A"`. -/
theorem c6_rating_prefix_tokens :
    (∀ p : String, isRatingToken p = true ↔
      ∃ ds c rest, p.data = ds ++ c :: rest ∧ ds ≠ [] ∧
        (∀ d ∈ ds, d.isDigit = true) ∧ (c = 'A' ∨ c = 'V' ∨ c = 'P')) ∧
    extractRating (pySplitChar '-' "MCB-3P-63A-SCH") = "3P 63A" ∧
    (∀ parts : List String, (∀ p ∈ parts, isRatingToken p = false) →
      extractRating parts = "") := by
  refine ⟨?_, by decide, ?_⟩
  · intro p
    unfold isRatingToken
    simp only [Bool.or_eq_true, digitsThen_iff]
    constructor
    · rintro (⟨ds, c, rest, heq, hne, hds, hc⟩ | ⟨ds, c, rest, heq, hne, hds, hc⟩)
      · refine ⟨ds, c, rest, heq, hne, hds, ?_⟩
        rcases List.mem_cons.mp hc with h | h
        · exact Or.inl h
        · exact Or.inr (Or.inl (by simpa using h))
      · exact ⟨ds, c, rest, heq, hne, hds, Or.inr (Or.inr (by simpa using hc))⟩
    · rintro ⟨ds, c, rest, heq, hne, hds, hc⟩
      rcases hc with h | h | h
      · exact Or.inl ⟨ds, c, rest, heq, hne, hds, by simp [h]⟩
      · exact Or.inl ⟨ds, c, rest, heq, hne, hds, by simp [h]⟩
      · exact Or.inr ⟨ds, c, rest, heq, hne, hds, by simp [h]⟩
  · intro parts h
    unfold extractRating
    have hf : parts.filter (fun p => isRatingToken p) = [] := by
      rw [List.filter_eq_nil_iff]
      intro a ha
      simp [h a ha]
    rw [hf]
    rfl

/-- Witness for C6: the empty-rating hypothesis discharged on tokens with no
rating pattern. -/
theorem c6_witness : extractRating ["MCB", "SCH"] = "" :=
  c6_rating_prefix_tokens.2.2 ["MCB", "SCH"] (by decide)

/-! ## Structure of the candidate dictionary: keys, coverage, last-wins -/

theorem buildDict_concat (l : List Candidate) (c : Candidate) :
    buildDict (l ++ [c]) = dictInsert (buildDict l) c := by
  unfold buildDict
  rw [List.foldl_append]
  rfl

theorem fst_dictInsert (acc : List (String × Candidate)) (c : Candidate) :
    (dictInsert acc c).map Prod.fst =
      if acc.any (fun p => p.1 = candidateStr c) then acc.map Prod.fst
      else acc.map Prod.fst ++ [candidateStr c] := by
  unfold dictInsert
  split
  · rw [List.map_map]
    apply List.map_congr_left
    intro p _
    dsimp [Function.comp]
    split
    · rename_i hp; exact hp.symm
    · rfl
  · simp

theorem keys_nodup_buildDict : ∀ cs : List Candidate, ((buildDict cs).map Prod.fst).Nodup := by
  intro cs
  induction cs using List.reverseRecOn with
  | nil => simp [buildDict]
  | append_singleton l c ih =>
    rw [buildDict_concat, fst_dictInsert]
    split
    · exact ih
    · rename_i h
      simp only [List.any_eq_true, decide_eq_true_eq] at h
      push_neg at h
      rw [List.nodup_append]
      refine ⟨ih, List.nodup_singleton _, ?_⟩
      intro a ha hb
      have haeq : a = candidateStr c := by simpa using hb
      subst haeq
      obtain ⟨p, hp, hpe⟩ := List.mem_map.mp ha
      exact (h p hp) hpe

theorem mem_keys_buildDict : ∀ (cs : List Candidate) (s : String),
    s ∈ (buildDict cs).map Prod.fst ↔ ∃ c ∈ cs, candidateStr c = s := by
  intro cs
  induction cs using List.reverseRecOn with
  | nil => intro s; simp [buildDict]
  | append_singleton l c ih =>
    intro s
    rw [buildDict_concat, fst_dictInsert]
    split
    · rename_i h
      simp only [List.any_eq_true, decide_eq_true_eq] at h
      obtain ⟨q, hq, hq1⟩ := h
      rw [ih s]
      constructor
      · rintro ⟨c', hc', he⟩
        exact ⟨c', List.mem_append_left _ hc', he⟩
      · rintro ⟨c', hc', he⟩
        rcases List.mem_append.mp hc' with hl | hr
        · exact ⟨c', hl, he⟩
        · have hcc : c' = c := by simpa using hr
          subst hcc
          have hqm : q.1 ∈ (buildDict l).map Prod.fst := List.mem_map_of_mem Prod.fst hq
          obtain ⟨c'', hc'', he''⟩ := (ih q.1).mp hqm
          exact ⟨c'', hc'', by rw [he'', hq1, he]⟩
    · rename_i h
      constructor
      · intro hmem
        rcases List.mem_append.mp hmem with hl | hr
        · obtain ⟨c', hc', he⟩ := (ih s).mp hl
          exact ⟨c', List.mem_append_left _ hc', he⟩
        · have hse : s = candidateStr c := by simpa using hr
          exact ⟨c, List.mem_append_right _ (by simp), hse.symm⟩
      · rintro ⟨c', hc', he⟩
        rcases List.mem_append.mp hc' with hl | hr
        · exact List.mem_append_left _ ((ih s).mpr ⟨c', hl, he⟩)
        · have hcc : c' = c := by simpa using hr
          subst hcc
          exact List.mem_append_right _ (by simp [he.symm])

theorem buildDict_lastWins : ∀ (cs : List Candidate) (p : String × Candidate),
    p ∈ buildDict cs → (cs.filter (fun c => candidateStr c = p.1)).getLast? = some p.2 := by
  intro cs
  induction cs using List.reverseRecOn with
  | nil => intro p hp; simp [buildDict] at hp
  | append_singleton l c ih =>
    intro p hp
    rw [buildDict_concat] at hp
    rw [List.filter_append]
    unfold dictInsert at hp
    split at hp
    · obtain ⟨q, hq, hqe⟩ := List.mem_map.mp hp
      by_cases hq1 : q.1 = candidateStr c
      · rw [if_pos hq1] at hqe
        cases hqe
        have hc1 : List.filter (fun c' => candidateStr c' = candidateStr c) [c] = [c] := by simp
        rw [hc1]
        exact List.getLast?_concat _
      · rw [if_neg hq1] at hqe
        subst hqe
        have hne : ¬ (candidateStr c = q.1) := fun hh => hq1 hh.symm
        have hc0 : List.filter (fun c' => candidateStr c' = q.1) [c] = [] := by
          simp [List.filter_singleton, hne]
        rw [hc0, List.append_nil]
        exact ih q hq
    · rename_i h
      rcases List.mem_append.mp hp with hl | hr
      · simp only [List.any_eq_true, decide_eq_true_eq] at h
        push_neg at h
        have hp1 : p.1 ≠ candidateStr c := h p hl
        have hne : ¬ (candidateStr c = p.1) := fun hh => hp1 hh.symm
        have hc0 : List.filter (fun c' => candidateStr c' = p.1) [c] = [] := by
          simp [List.filter_singleton, hne]
        rw [hc0, List.append_nil]
        exact ih p hl
      · have hpc : p = (candidateStr c, c) := by simpa using hr
        subst hpc
        have hc1 : List.filter (fun c' => candidateStr c' = candidateStr c) [c] = [c] := by simp
        rw [hc1]
        exact List.getLast?_concat _

theorem buildDict_length_dedup (cs : List Candidate) :
    (buildDict cs).length = ((cs.map candidateStr).dedup).length := by
  have h1 : (buildDict cs).length = ((buildDict cs).map Prod.fst).length :=
    (List.length_map _ _).symm
  have h2 : ((buildDict cs).map Prod.fst).toFinset = (cs.map candidateStr).toFinset := by
    ext s
    rw [List.mem_toFinset, List.mem_toFinset, mem_keys_buildDict, List.mem_map]
  rw [h1, ← List.toFinset_card_of_nodup (keys_nodup_buildDict cs), h2, List.card_toFinset]

/-! ## The best match comes from the dictionary -/

theorem foldl_scoreStep_mem (q : String) (S : List (String × Candidate)) :
    ∀ (rest : List (String × Candidate)) (b : (String × Candidate) × Nat),
      b.1 ∈ S → (∀ r ∈ rest, r ∈ S) → (rest.foldl (scoreStep q) b).1 ∈ S := by
  intro rest
  induction rest with
  | nil => intro b hb _; exact hb
  | cons r rs ih =>
    intro b hb hsub
    rw [List.foldl_cons]
    apply ih
    · unfold scoreStep
      split
      · exact hsub r (by simp)
      · exact hb
    · intro x hx; exact hsub x (by simp [hx])

theorem extractOneBest_mem (q : String) (l : List (String × Candidate))
    (ps : (String × Candidate) × Nat) (h : extractOneBest q l = some ps) : ps.1 ∈ l := by
  cases l with
  | nil => simp [extractOneBest] at h
  | cons p rest =>
    simp only [extractOneBest, Option.some.injEq] at h
    rw [← h]
    exact foldl_scoreStep_mem q (p :: rest) rest _ (by simp) (fun r hr => by simp [hr])

theorem matchComponent_some_mem (d : DetectedItem) (cs : List Candidate)
    (id s : Nat) (t : String) (h : matchComponent d cs = (some id, s, t)) :
    ∃ p ∈ buildDict cs, id = p.2.component_id := by
  cases cs with
  | nil => simp [matchComponent] at h
  | cons c rest =>
    simp only [matchComponent] at h
    cases he : extractOneBest (detectedStr d) (buildDict (c :: rest)) with
    | none => rw [he] at h; simp at h
    | some ps =>
      rw [he] at h
      simp only [Prod.mk.injEq, Option.some.injEq] at h
      exact ⟨ps.1, extractOneBest_mem _ _ _ he, h.1.symm⟩

/-! ## Descending stable sort: length, membership, sortedness -/

theorem mem_insertDesc {α : Type} (key : α → Nat) (x : α) :
    ∀ (l : List α) (a : α), a ∈ insertDesc key x l ↔ a = x ∨ a ∈ l := by
  intro l
  induction l with
  | nil => intro a; simp [insertDesc]
  | cons y ys ih =>
    intro a
    unfold insertDesc
    split
    · simp [List.mem_cons]
    · simp only [List.mem_cons, ih]
      tauto

theorem length_insertDesc {α : Type} (key : α → Nat) (x : α) :
    ∀ l : List α, (insertDesc key x l).length = l.length + 1 := by
  intro l
  induction l with
  | nil => rfl
  | cons y ys ih =>
    unfold insertDesc
    split
    · simp
    · simp [ih]

theorem pairwise_insertDesc {α : Type} (key : α → Nat) (x : α) :
    ∀ l : List α, l.Pairwise (fun a b => key b ≤ key a) →
      (insertDesc key x l).Pairwise (fun a b => key b ≤ key a) := by
  intro l
  induction l with
  | nil => intro _; simp [insertDesc]
  | cons y ys ih =>
    intro hl
    rw [List.pairwise_cons] at hl
    obtain ⟨hy, hys⟩ := hl
    unfold insertDesc
    split
    · rename_i hgt
      rw [List.pairwise_cons]
      refine ⟨?_, List.pairwise_cons.mpr ⟨hy, hys⟩⟩
      intro b hb
      rcases List.mem_cons.mp hb with hb | hb
      · rw [hb]; omega
      · have := hy b hb; omega
    · rename_i hle
      rw [List.pairwise_cons]
      refine ⟨?_, ih hys⟩
      intro b hb
      rcases (mem_insertDesc key x ys b).mp hb with hb | hb
      · rw [hb]; omega
      · exact hy b hb

theorem foldl_insertDesc_pairwise {α : Type} (key : α → Nat) :
    ∀ (l acc : List α), acc.Pairwise (fun a b => key b ≤ key a) →
      (l.foldl (fun a x => insertDesc key x a) acc).Pairwise (fun a b => key b ≤ key a) := by
  intro l
  induction l with
  | nil => intro acc h; exact h
  | cons x xs ih =>
    intro acc h
    rw [List.foldl_cons]
    exact ih _ (pairwise_insertDesc key x acc h)

theorem sortDesc_pairwise {α : Type} (key : α → Nat) (l : List α) :
    (sortDesc key l).Pairwise (fun a b => key b ≤ key a) :=
  foldl_insertDesc_pairwise key l [] (by simp)

theorem foldl_insertDesc_length {α : Type} (key : α → Nat) :
    ∀ (l acc : List α),
      (l.foldl (fun a x => insertDesc key x a) acc).length = acc.length + l.length := by
  intro l
  induction l with
  | nil => intro acc; simp
  | cons x xs ih =>
    intro acc
    rw [List.foldl_cons, ih, length_insertDesc]
    simp only [List.length_cons]
    omega

theorem sortDesc_length {α : Type} (key : α → Nat) (l : List α) :
    (sortDesc key l).length = l.length := by
  unfold sortDesc
  rw [foldl_insertDesc_length]
  simp

theorem foldl_insertDesc_mem {α : Type} (key : α → Nat) :
    ∀ (l acc : List α) (a : α),
      a ∈ l.foldl (fun a x => insertDesc key x a) acc ↔ a ∈ acc ∨ a ∈ l := by
  intro l
  induction l with
  | nil => intro acc a; simp
  | cons x xs ih =>
    intro acc a
    rw [List.foldl_cons, ih, mem_insertDesc]
    simp only [List.mem_cons]
    tauto

theorem mem_sortDesc {α : Type} (key : α → Nat) (l : List α) (a : α) :
    a ∈ sortDesc key l ↔ a ∈ l := by
  unfold sortDesc
  rw [foldl_insertDesc_mem]
  simp

/-! ## Shape of the suggestion list -/

theorem getMatchSuggestions_length (d : DetectedItem) (cs : List Candidate) (k : Int) :
    (getMatchSuggestions d cs k).length = min k.toNat (buildDict cs).length := by
  cases cs with
  | nil => simp [getMatchSuggestions, buildDict]
  | cons c rest =>
    simp only [getMatchSuggestions]
    rw [List.length_map, List.length_take, sortDesc_length, List.length_map]

theorem getMatchSuggestions_sorted (d : DetectedItem) (cs : List Candidate) (k : Int) :
    ((getMatchSuggestions d cs k).map Prod.snd).Pairwise (fun a b => b ≤ a) := by
  cases cs with
  | nil => simp [getMatchSuggestions]
  | cons c rest =>
    simp only [getMatchSuggestions]
    rw [List.map_map, List.pairwise_map]
    exact List.Pairwise.sublist (List.take_sublist _ _)
      (sortDesc_pairwise (fun q => q.2)
        ((buildDict (c :: rest)).map (fun p => (p, tokenSortRatioScore (detectedStr d) p.1))))

theorem getMatchSuggestions_mem (d : DetectedItem) (cs : List Candidate) (k : Int)
    (x : Candidate × Nat) (hx : x ∈ getMatchSuggestions d cs k) :
    ∃ p ∈ buildDict cs, x.1 = p.2 := by
  cases cs with
  | nil => simp [getMatchSuggestions] at hx
  | cons c rest =>
    simp only [getMatchSuggestions] at hx
    obtain ⟨q, hq, hqe⟩ := List.mem_map.mp hx
    have hq2 := List.take_subset _ _ hq
    rw [mem_sortDesc] at hq2
    obtain ⟨p, hp, hpe⟩ := List.mem_map.mp hq2
    refine ⟨p, hp, ?_⟩
    rw [← hqe, ← hpe]

/-- C7 counterexample: two candidates with the same comparable string collapse
into one dictionary key, so `k = 2` returns one suggestion, not
`min(k, number of candidates) = 2`. -/
theorem c7_counterexample :
    (getMatchSuggestions ⟨"A", "OTHER", "", ""⟩
        [⟨1, "A", "", ""⟩, ⟨2, "A", "", ""⟩] 2).length = 1 ∧
    ([⟨1, "A", "", ""⟩, ⟨2, "A", "", ""⟩] : List Candidate).length = 2 ∧
    (1 : Nat) ≠ min 2 2 := by decide

/-- C7 (amended): `get_match_suggestions` returns a sequence of length
`min(k, D)` where `D` is the number of DISTINCT comparable candidate strings
(records with duplicate comparable strings collapse into one dictionary entry),
sorted non-increasingly by match score. -/
theorem c7_suggestions_shape (d : DetectedItem) (cs : List Candidate) (k : Int) :
    (getMatchSuggestions d cs k).length = min k.toNat ((cs.map candidateStr).dedup).length ∧
    ((getMatchSuggestions d cs k).map Prod.snd).Pairwise (fun a b => b ≤ a) := by
  refine ⟨?_, getMatchSuggestions_sorted d cs k⟩
  rw [getMatchSuggestions_length, buildDict_length_dedup]

/-- C9 counterexample: `k = 0` with a non-empty candidate pool silently yields
the empty suggestion list — there is no precondition failure in the code path
(`heapq.nlargest` simply produces nothing for a non-positive count). -/
theorem c9_counterexample :
    getMatchSuggestions ⟨"A", "OTHER", "", ""⟩ [⟨1, "A", "", ""⟩] 0 = [] := by decide

/-- C9 (amended): for every non-positive `k`, `get_match_suggestions` silently
returns the empty list; no precondition is checked and no error is raised. -/
theorem c9_nonpositive_k_silently_empty (d : DetectedItem) (cs : List Candidate)
    (k : Int) (hk : k ≤ 0) : getMatchSuggestions d cs k = [] := by
  cases cs with
  | nil => rfl
  | cons c rest =>
    simp only [getMatchSuggestions]
    rw [Int.toNat_of_nonpos hk]
    simp

/-- Witness for C9: the non-positivity hypothesis discharged at `k = -1`. -/
theorem c9_witness :
    getMatchSuggestions ⟨"B", "OTHER", "", ""⟩ [⟨3, "B", "", ""⟩] (-1) = [] :=
  c9_nonpositive_k_silently_empty _ _ _ (by decide)

/-- C10: candidates whose comparable strings coincide collapse in the
dictionary — its keys are exactly the distinct comparable strings, without
duplicates; each key holds the last-retrieved record with that string;
`match_component` can only return such a last record; every suggestion is such
a last record; and the number of suggestions is bounded by the number of
distinct comparable strings. -/
theorem c10_duplicate_records_collapse :
    (∀ cs : List Candidate, ((buildDict cs).map Prod.fst).Nodup) ∧
    (∀ (cs : List Candidate) (s : String),
      s ∈ (buildDict cs).map Prod.fst ↔ ∃ c ∈ cs, candidateStr c = s) ∧
    (∀ (d : DetectedItem) (cs : List Candidate) (id s : Nat) (t : String),
      matchComponent d cs = (some id, s, t) →
      ∃ p ∈ buildDict cs, id = p.2.component_id ∧
        (cs.filter (fun c => candidateStr c = p.1)).getLast? = some p.2) ∧
    (∀ (d : DetectedItem) (cs : List Candidate) (k : Int) (x : Candidate × Nat),
      x ∈ getMatchSuggestions d cs k →
      ∃ p ∈ buildDict cs, x.1 = p.2 ∧
        (cs.filter (fun c => candidateStr c = p.1)).getLast? = some p.2) ∧
    (∀ (d : DetectedItem) (cs : List Candidate) (k : Int),
      (getMatchSuggestions d cs k).length ≤ ((cs.map candidateStr).dedup).length) := by
  refine ⟨keys_nodup_buildDict, mem_keys_buildDict, ?_, ?_, ?_⟩
  · intro d cs id s t h
    obtain ⟨p, hp, he⟩ := matchComponent_some_mem d cs id s t h
    exact ⟨p, hp, he, buildDict_lastWins cs p hp⟩
  · intro d cs k x hx
    obtain ⟨p, hp, he⟩ := getMatchSuggestions_mem d cs k x hx
    exact ⟨p, hp, he, buildDict_lastWins cs p hp⟩
  · intro d cs k
    rw [getMatchSuggestions_length, ← buildDict_length_dedup]
    exact Nat.min_le_right _ _

/-- Witness for C10: with two duplicate candidates the matcher returns id 5,
which belongs to the last-retrieved record of the shared comparable string. -/
theorem c10_witness :
    ∃ p ∈ buildDict [⟨4, "CC", "", ""⟩, ⟨5, "CC", "", ""⟩],
      5 = p.2.component_id ∧
      (([⟨4, "CC", "", ""⟩, ⟨5, "CC", "", ""⟩] : List Candidate).filter
        (fun c => candidateStr c = p.1)).getLast? = some p.2 :=
  c10_duplicate_records_collapse.2.2.1 ⟨"CC", "OTHER", "", ""⟩
    [⟨4, "CC", "", ""⟩, ⟨5, "CC", "", ""⟩] 5 100 "auto" (by decide)

end Switchboard
